import Mathlib

/-!
Verification of the StarRocks block-cache component and its neighbours.

Shallow embedding of:
- `SinkIOBuffer` (be/src/exec/pipeline/sink/sink_io_buffer.h): the latched
  first-fault I/O status and `append_chunk`.
- `ConnectorTableColumnKey` (fe, connector statistics): Java `equals` /
  `hashCode`.
- `IOBuffer.copy_to`, `parse_conf_block_cache_paths` and the `BlockCache`
  façade over the starcache engine: their implementations are exercised only
  through be/test/block_cache/block_cache_test.cpp here, so they are modelled
  from the design document (spec.md), as noted on each definition.

Machine integers are modelled as `Nat` with explicit `% 2 ^ 32` where Java
`int` overflow matters; statuses are small inductive types; byte buffers are
`List Nat`.
-/

namespace StarRocks

/-- Model of `starrocks::Status` restricted to the codes the verified
operations produce.  `ok` is `Status::OK()`; the payload of the other
constructors is the error message. -/
inductive SStatus where
  | ok : SStatus
  | internalError : String → SStatus
  | alreadyExist : String → SStatus
  | notFound : String → SStatus
  | invalidArgument : String → SStatus
deriving DecidableEq, Repr

/-- `Status::ok()`. -/
def SStatus.isOk : SStatus → Bool
  | .ok => true
  | _ => false

/-! ### SinkIOBuffer (from be/src/exec/pipeline/sink/sink_io_buffer.h)

The sequentially observable state of a `SinkIOBuffer`: the latched I/O
status (`_io_status`, guarded by `_io_status_mutex`), the pending-chunk
counter (`_num_pending_chunks`) and the contents of the execution queue.
Chunks are opaque and modelled as `Nat` identifiers. -/

structure SinkIOBufferState where
  ioStatus : SStatus
  numPendingChunks : Nat
  queue : List Nat
deriving DecidableEq, Repr

/-- `SinkIOBuffer::set_io_status`: under the exclusive lock, the incoming
status is stored only when the current one is still OK. -/
def set_io_status (st : SinkIOBufferState) (status : SStatus) : SinkIOBufferState :=
  if st.ioStatus.isOk then { st with ioStatus := status } else st

/-- `SinkIOBuffer::get_io_status`: returns the stored status. -/
def get_io_status (st : SinkIOBufferState) : SStatus :=
  st.ioStatus

/-- `SinkIOBuffer::append_chunk`.  `submitOk` models whether
`bthread::execution_queue_execute` returns 0 (the environment decides).
Returns the new state and the status given back to the caller. -/
def append_chunk (st : SinkIOBufferState) (submitOk : Bool) (chunk : Nat) :
    SinkIOBufferState × SStatus :=
  if (get_io_status st).isOk = false then
    (st, get_io_status st)
  else if submitOk = false then
    (st, SStatus.internalError "submit io task failed")
  else
    ({ st with numPendingChunks := st.numPendingChunks + 1, queue := st.queue ++ [chunk] },
      SStatus.ok)

/-! ### ConnectorTableColumnKey (fe connector statistics, Java) -/

/-- Java `Character.toLowerCase` restricted to ASCII, which is all the
comparison below depends on for the claims at hand. -/
def javaToLower (c : Char) : Char :=
  if 65 ≤ c.toNat ∧ c.toNat ≤ 90 then Char.ofNat (c.toNat + 32) else c

/-- Java `String.equalsIgnoreCase`: equal lengths and case-insensitively
equal characters. -/
def equalsIgnoreCase (s t : String) : Bool :=
  s.toList.map javaToLower == t.toList.map javaToLower

/-- Java `String.hashCode`: `h = 31*h + c` over the UTF-16 units, in 32-bit
arithmetic (modelled as `Nat` mod `2 ^ 32`). -/
def javaStringHash (s : String) : Nat :=
  s.toList.foldl (fun h c => (31 * h + c.toNat) % 2 ^ 32) 0

/-- `ConnectorTableColumnKey`: a table UUID plus a column name. -/
structure ConnectorTableColumnKey where
  tableUUID : String
  column : String
deriving DecidableEq, Repr

/-- `ConnectorTableColumnKey.equals`: case-sensitive on `tableUUID`,
`equalsIgnoreCase` on `column`. -/
def keyEquals (a b : ConnectorTableColumnKey) : Bool :=
  a.tableUUID == b.tableUUID && equalsIgnoreCase a.column b.column

/-- `ConnectorTableColumnKey.hashCode` = `Objects.hash(tableUUID, column)` =
`31 * (31 * 1 + hash(tableUUID)) + hash(column)` in 32-bit arithmetic; both
string hashes are case-sensitive. -/
def keyHashCode (k : ConnectorTableColumnKey) : Nat :=
  ((31 * ((31 * 1 + javaStringHash k.tableUUID) % 2 ^ 32)) % 2 ^ 32
    + javaStringHash k.column) % 2 ^ 32

/-! ### IOBuffer

The IOBuffer implementation (be/src/block_cache/io_buffer.h, a wrapper over
`butil::IOBuf`) is not part of the sources at hand; only its test is.  It is
modelled from the design document, §4.1. -/

/-- Modelled from the spec: an IOBuffer is "a scatter-gather container of
externally-owned data segments", an "ordered sequence of segments".  A
segment's bytes are modelled as a `List Nat`; ownership and release
callbacks are not observable through `copy_to` and are omitted. -/
structure IOBuffer where
  segments : List (List Nat)
deriving DecidableEq, Repr

/-- Modelled from the spec: `append_user_data` (`append_segment` in §4.1)
"appends a zero-copy reference to existing memory". -/
def append_user_data (buf : IOBuffer) (seg : List Nat) : IOBuffer :=
  ⟨buf.segments ++ [seg]⟩

/-- Modelled from the spec: the copy "walks segments in order,
skipping/splitting at segment boundaries as needed".  `offset` is relative
to the start of the current segment list; returns the copied bytes. -/
def copyToSegments : List (List Nat) → Nat → Nat → List Nat
  | [], _, _ => []
  | seg :: rest, offset, length =>
    if seg.length ≤ offset then
      copyToSegments rest (offset - seg.length) length
    else if length ≤ seg.length - offset then
      (seg.drop offset).take length
    else
      seg.drop offset ++ copyToSegments rest 0 (length - (seg.length - offset))

/-- Modelled from the spec: `copy_to(dest, length, offset)` "copies `length`
bytes starting at logical `offset` (summed across all prior segments) into
caller-provided contiguous storage".  The filled destination is returned. -/
def copy_to (buf : IOBuffer) (length offset : Nat) : List Nat :=
  copyToSegments buf.segments offset length

/-! ### Space configuration parser

`parse_conf_block_cache_paths` (be/src/storage/options.cpp) is not part of
the sources at hand; only its test is.  It is modelled from the design
document, §4.3.  Path strings are modelled as `List Char`; the filesystem's
verdict on a candidate path ("cannot be resolved/created") is an
environment parameter `fsValid`. -/

/-- Splits a character list at every occurrence of the delimiter `d`
(the spec's "delimiter-separated string"). -/
def splitOnDelim (d : Char) (l : List Char) : List (List Char) :=
  l.foldr
    (fun c acc =>
      match acc with
      | [] => [[c]]
      | a :: rest => if c = d then [] :: a :: rest else (c :: a) :: rest)
    [[]]

/-- Modelled from the spec: "trim whitespace per entry". -/
def trimChars (l : List Char) : List Char :=
  ((l.dropWhile Char.isWhitespace).reverse.dropWhile Char.isWhitespace).reverse

/-- Modelled from the spec: "an entry that is empty after trimming is
invalid; an entry whose path cannot be resolved/created ... is invalid"
(the latter is the environment parameter `fsValid`). -/
def entryValid (fsValid : List Char → Bool) (e : List Char) : Bool :=
  !e.isEmpty && fsValid e

/-- Modelled from the spec: each entry is trimmed and validated; a valid
entry is appended to the output list; any invalid entry makes the overall
status non-OK, while later valid entries are still processed and kept (the
test expects the valid entry after an invalid one to be returned). -/
def parsePathEntries (fsValid : List Char → Bool) : List (List Char) → List (List Char) × Bool
  | [] => ([], true)
  | e :: rest =>
    let t := trimChars e
    let result := parsePathEntries fsValid rest
    if entryValid fsValid t then (t :: result.1, result.2) else (result.1, false)

/-- Modelled from the spec: `parse_conf_block_cache_paths` splits the
configured string on `;`, trims and validates every entry, returns the
valid normalized paths and an overall status (`true` = OK). -/
def parse_conf_block_cache_paths (fsValid : List Char → Bool) (input : List Char) :
    List (List Char) × Bool :=
  parsePathEntries fsValid (splitOnDelim ';' input)

/-! ### BlockCache façade over the starcache engine

The BlockCache implementation (be/src/block_cache/block_cache.cpp and the
starcache engine behind it) is not part of the sources at hand; only its
test is.  It is modelled from the design document, §3, §4.2 and §4.4:
blocks of a fixed `block_size` addressed by `(identifier, block index)`,
writes segmented into block-aligned chunks with read-modify-write of
partial blocks, reads that short-circuit to NotFound on the first missing
chunk, removal of every block covering the given range.  The memory/disk
tier split only decides placement, not observable read/write/remove
results, so the store is modelled as a single association list.  Partial
blocks with no prior content are zero-filled (the policy left open in §9 is
resolved the way the round-trip property forces for fully-written
ranges). -/

/-- The blocks resident in the cache engine: an association list from
`(identifier, block index)` to the block's bytes. -/
structure BlockCacheState where
  store : List ((String × Nat) × List Nat)
deriving DecidableEq, Repr

/-- Engine lookup of one block. -/
def lookupBlock (st : BlockCacheState) (key : String) (i : Nat) : Option (List Nat) :=
  match st.store.find? (fun e => e.1.1 == key && e.1.2 == i) with
  | some e => some e.2
  | none => none

/-- Engine store of one block, "replacing any previous content for that
exact block key". -/
def setBlock (st : BlockCacheState) (key : String) (i : Nat) (blk : List Nat) : BlockCacheState :=
  ⟨((key, i), blk) :: st.store⟩

/-- Modelled from the spec: the block indices touched by the byte range
`[off, off + len)` under block size `B` — the façade "segments the
requested range into block-aligned chunks". -/
def chunkIdxs (B off len : Nat) : List Nat :=
  if len = 0 then []
  else (List.range ((off + len - 1) / B + 1 - off / B)).map (fun j => off / B + j)

/-- Absolute start of the part of `[off, off + len)` that falls in block
`i`. -/
def chunkLo (off i B : Nat) : Nat := max off (i * B)

/-- Absolute end (exclusive) of the part of `[off, off + len)` that falls
in block `i`. -/
def chunkHi (off len i B : Nat) : Nat := min (off + len) ((i + 1) * B)

/-- Modelled from the spec: read-modify-write of one block — the bytes
`chunk` replace positions `[lo, lo + chunk.length)` of the existing block
content `old`; a gap below `lo` is zero-filled. -/
def mergeBlock (old : List Nat) (lo : Nat) (chunk : List Nat) : List Nat :=
  (old ++ List.replicate (lo - old.length) 0).take lo ++ chunk ++ old.drop (lo + chunk.length)

/-- The content block `i` holds after the sub-write of `[off, off + len)`
hitting it: the slice of `data` falling in block `i`, merged into the
block's previous content. -/
def writtenBlock (B : Nat) (key : String) (off len : Nat) (data : List Nat)
    (st : BlockCacheState) (i : Nat) : List Nat :=
  mergeBlock ((lookupBlock st key i).getD []) (chunkLo off i B - i * B)
    ((data.drop (chunkLo off i B - off)).take (chunkHi off len i B - chunkLo off i B))

/-- One block-aligned sub-write of `write_cache`: the slice of `data` that
falls in block `i` is merged into that block. -/
def writeChunk (B : Nat) (key : String) (off len : Nat) (data : List Nat)
    (st : BlockCacheState) (i : Nat) : BlockCacheState :=
  setBlock st key i (writtenBlock B key off len data st i)

/-- Modelled from the spec: the block-aligned sub-calls of one
`write_cache`.  "If `overwrite=false` and an identical block key already
exists, fail with AlreadyExists and leave existing data untouched";
sub-block errors "abort the remaining sub-calls ... (no rollback of prior
sub-blocks)". -/
def writeChunks (B : Nat) (key : String) (off len : Nat) (data : List Nat) (overwrite : Bool) :
    BlockCacheState → List Nat → BlockCacheState × SStatus
  | st, [] => (st, .ok)
  | st, i :: rest =>
    if overwrite = false ∧ (lookupBlock st key i).isSome = true then
      (st, .alreadyExist "the cache item already exists")
    else
      writeChunks B key off len data overwrite (writeChunk B key off len data st i) rest

/-- Modelled from the spec: `write_cache(key, offset, length, data,
overwrite)` "segments `[total_offset, total_offset+total_length)` into
block-aligned sub-calls to the active engine's `write`". -/
def write_cache (B : Nat) (st : BlockCacheState) (key : String) (off len : Nat)
    (data : List Nat) (overwrite : Bool) : BlockCacheState × SStatus :=
  writeChunks B key off len data overwrite st (chunkIdxs B off len)

/-- One block-aligned sub-read: the requested slice of block `i`, or `none`
when the block is absent or does not extend far enough. -/
def readChunk (B : Nat) (st : BlockCacheState) (key : String) (off len i : Nat) :
    Option (List Nat) :=
  match lookupBlock st key i with
  | none => none
  | some blk =>
    let lo := chunkLo off i B - i * B
    let hi := chunkHi off len i B - i * B
    if hi ≤ blk.length then some ((blk.drop lo).take (hi - lo)) else none

/-- Modelled from the spec: `read_cache` "segments similarly, short-circuits
and returns NotFound on the first sub-block miss"; `none` models the
NotFound status, `some bytes` models OK with the destination filled. -/
def readChunks (B : Nat) (st : BlockCacheState) (key : String) (off len : Nat) :
    List Nat → Option (List Nat)
  | [] => some []
  | i :: rest =>
    match readChunk B st key off len i with
    | none => none
    | some piece =>
      match readChunks B st key off len rest with
      | none => none
      | some out => some (piece ++ out)

/-- Modelled from the spec: `read_cache(key, offset, length, dest)`. -/
def read_cache (B : Nat) (st : BlockCacheState) (key : String) (off len : Nat) :
    Option (List Nat) :=
  readChunks B st key off len (chunkIdxs B off len)

/-- Modelled from the spec: `remove_cache` "deletes the block(s) covering
the given range from whichever tier holds them; removing a non-existent
range is a no-op success". -/
def remove_cache (B : Nat) (st : BlockCacheState) (key : String) (off len : Nat) :
    BlockCacheState × SStatus :=
  (⟨st.store.filter (fun e => !(e.1.1 == key && decide (e.1.2 ∈ chunkIdxs B off len)))⟩,
    SStatus.ok)

/-- A concrete model of the filesystem verdict used by the parser tests:
only paths below the directory `/d/` can be resolved and created. -/
def pathsTestFs (e : List Char) : Bool :=
  ['/', 'd', '/'].isPrefixOf e

/-! ## Theorems -/

/-! ### Helper lemmas: SinkIOBuffer -/

theorem SStatus.isOk_true_iff (s : SStatus) : s.isOk = true ↔ s = SStatus.ok := by
  cases s <;> simp [SStatus.isOk]

theorem foldl_set_io_status_frozen (st : SinkIOBufferState)
    (h : st.ioStatus.isOk = false) (calls : List SStatus) :
    calls.foldl set_io_status st = st := by
  induction calls with
  | nil => rfl
  | cons c rest ih =>
    have hset : set_io_status st c = st := by
      simp [set_io_status, h]
    simp only [List.foldl_cons, hset, ih]

/-- C8: the shared I/O-status field retains only the first fault: from an OK
status, the first non-OK `set_io_status` is stored, every later call leaves
the stored value unchanged, and `get_io_status` returns the stored value —
for any sequence of `set_io_status` calls starting from OK, the observed
status is the first non-OK status of the sequence (or OK if none). -/
theorem io_status_first_fault_wins :
    (∀ st : SinkIOBufferState, get_io_status st = st.ioStatus) ∧
    (∀ (st : SinkIOBufferState) (status : SStatus),
      st.ioStatus.isOk = false → set_io_status st status = st) ∧
    (∀ (init : SinkIOBufferState) (calls : List SStatus), init.ioStatus = SStatus.ok →
      get_io_status (calls.foldl set_io_status init) =
        (calls.find? (fun s => !s.isOk)).getD SStatus.ok) := by
  refine ⟨fun st => rfl, fun st status h => by simp [set_io_status, h], ?_⟩
  intro init calls
  induction calls generalizing init with
  | nil => intro h; simp [get_io_status, h]
  | cons c rest ih =>
    intro h
    have hok : init.ioStatus.isOk = true := by rw [h]; rfl
    have hset : set_io_status init c = { init with ioStatus := c } := by
      simp [set_io_status, hok]
    by_cases hc : c = SStatus.ok
    · subst hc
      simp only [List.foldl_cons, hset, List.find?_cons]
      have : ((!SStatus.ok.isOk) : Bool) = false := rfl
      rw [this]
      exact ih { init with ioStatus := SStatus.ok } rfl
    · have hcok : c.isOk = false := by
        cases hf : c.isOk
        · rfl
        · exact absurd ((SStatus.isOk_true_iff c).mp hf) hc
      simp only [List.foldl_cons, hset, List.find?_cons, hcok]
      rw [foldl_set_io_status_frozen { init with ioStatus := c } hcok rest]
      simp [get_io_status]

/-- Witness for C8: with the call sequence OK, InternalError, NotFound from
a fresh buffer, the observed status is the InternalError. -/
theorem io_status_first_fault_wins_witness :
    get_io_status
      ([SStatus.ok, SStatus.internalError "boom", SStatus.notFound "later"].foldl
        set_io_status ⟨SStatus.ok, 0, []⟩) = SStatus.internalError "boom" := by
  have h := io_status_first_fault_wins.2.2 ⟨SStatus.ok, 0, []⟩
    [SStatus.ok, SStatus.internalError "boom", SStatus.notFound "later"] rfl
  rw [h]; rfl

/-- C9: `append_chunk` first checks the latched I/O status and returns it
unchanged (no enqueue, no pending-count change) when it is non-OK;
otherwise a failed queue submission returns InternalError without touching
the state, and only a successful submission enqueues the chunk, increments
the pending count and returns OK. -/
theorem append_chunk_spec (st : SinkIOBufferState) (submitOk : Bool) (chunk : Nat) :
    (st.ioStatus.isOk = false → append_chunk st submitOk chunk = (st, st.ioStatus)) ∧
    (st.ioStatus.isOk = true → submitOk = false →
      append_chunk st submitOk chunk = (st, SStatus.internalError "submit io task failed")) ∧
    (st.ioStatus.isOk = true → submitOk = true →
      append_chunk st submitOk chunk =
        ({ st with numPendingChunks := st.numPendingChunks + 1,
                   queue := st.queue ++ [chunk] }, SStatus.ok)) := by
  refine ⟨fun h => ?_, fun h hs => ?_, fun h hs => ?_⟩
  · simp [append_chunk, get_io_status, h]
  · simp [append_chunk, get_io_status, h, hs]
  · simp [append_chunk, get_io_status, h, hs]

/-- Witness for C9: on a buffer whose status is already NotFound, appending
a chunk returns that status and leaves the state untouched. -/
theorem append_chunk_spec_witness :
    append_chunk ⟨SStatus.notFound "gone", 3, [7]⟩ true 9 =
      (⟨SStatus.notFound "gone", 3, [7]⟩, SStatus.notFound "gone") :=
  (append_chunk_spec ⟨SStatus.notFound "gone", 3, [7]⟩ true 9).1 rfl

/-! ### ConnectorTableColumnKey -/

/-- C10: `equals` is true for keys with equal `tableUUID` and
case-insensitively equal columns, but `hashCode` hashes the column
case-sensitively, so an `equals`-equal pair can have different hash codes:
equality is not a congruence for hashing. -/
theorem keyEquals_not_hash_congruent :
    (∀ a b : ConnectorTableColumnKey, a.tableUUID = b.tableUUID →
      equalsIgnoreCase a.column b.column = true → keyEquals a b = true) ∧
    (keyEquals ⟨"t", "a"⟩ ⟨"t", "A"⟩ = true ∧
      keyHashCode ⟨"t", "a"⟩ ≠ keyHashCode ⟨"t", "A"⟩) := by
  constructor
  · intro a b h1 h2
    simp [keyEquals, h1, h2]
  · constructor
    · decide
    · decide

/-- Witness for C10: the positive `equals` clause applied to a concrete
pair differing only in column case. -/
theorem keyEquals_not_hash_congruent_witness :
    keyEquals ⟨"uuid1", "Name"⟩ ⟨"uuid1", "nAME"⟩ = true :=
  keyEquals_not_hash_congruent.1 ⟨"uuid1", "Name"⟩ ⟨"uuid1", "nAME"⟩ rfl (by decide)

/-! ### IOBuffer -/

theorem copyToSegments_eq_flatten (segs : List (List Nat)) :
    ∀ offset length, copyToSegments segs offset length =
      ((segs.flatten).drop offset).take length := by
  induction segs with
  | nil => intro offset length; simp [copyToSegments]
  | cons seg rest ih =>
    intro offset length
    rw [List.flatten_cons, copyToSegments, List.drop_append_eq_append_drop]
    by_cases h1 : seg.length ≤ offset
    · rw [if_pos h1, ih, List.drop_eq_nil_of_le h1, List.nil_append]
    · rw [if_neg h1]
      have e1 : offset - seg.length = 0 := by omega
      rw [e1, List.drop_zero, List.take_append_eq_append_take, List.length_drop]
      by_cases h2 : length ≤ seg.length - offset
      · rw [if_pos h2]
        have e2 : length - (seg.length - offset) = 0 := by omega
        rw [e2, List.take_zero, List.append_nil]
      · rw [if_neg h2, ih, List.drop_zero,
          List.take_of_length_le
            (show (seg.drop offset).length ≤ length by rw [List.length_drop]; omega)]

set_option maxRecDepth 10000 in
/-- C5: `copy_to` extracts the requested logical range of the concatenated
segments without modifying any segment (it is a pure function of the
buffer); for three appended 100-byte segments filled with 1, 2, 3, copying
150 bytes at logical offset 150 yields the last 50 bytes of the second
segment followed by all 100 bytes of the third. -/
theorem copy_to_iobuf :
    (∀ (buf : IOBuffer) (length offset : Nat),
      copy_to buf length offset = ((buf.segments.flatten).drop offset).take length) ∧
    copy_to
      (append_user_data
        (append_user_data (append_user_data ⟨[]⟩ (List.replicate 100 1))
          (List.replicate 100 2))
        (List.replicate 100 3)) 150 150 =
      List.replicate 50 2 ++ List.replicate 100 3 := by
  constructor
  · intro buf length offset
    exact copyToSegments_eq_flatten buf.segments offset length
  · decide

/-! ### Space configuration parser -/

theorem parsePathEntries_fst (fsValid : List Char → Bool) (es : List (List Char)) :
    (parsePathEntries fsValid es).1 = (es.map trimChars).filter (entryValid fsValid) := by
  induction es with
  | nil => rfl
  | cons e rest ih =>
    rw [parsePathEntries, List.map_cons, List.filter_cons]
    by_cases h : entryValid fsValid (trimChars e) = true
    · rw [if_pos h, if_pos h]
      simpa using ih
    · rw [if_neg h, if_neg h]
      simpa using ih

theorem parsePathEntries_snd (fsValid : List Char → Bool) (es : List (List Char)) :
    (parsePathEntries fsValid es).2 = (es.map trimChars).all (entryValid fsValid) := by
  induction es with
  | nil => rfl
  | cons e rest ih =>
    rw [parsePathEntries, List.map_cons, List.all_cons]
    by_cases h : entryValid fsValid (trimChars e) = true
    · rw [if_pos h, h]
      simpa using ih
    · rw [if_neg h]
      simp only [Bool.false_and]
      rw [show entryValid fsValid (trimChars e) = false from by
        cases hf : entryValid fsValid (trimChars e)
        · rfl
        · exact absurd hf h]
      rfl

/-- C7: when every trimmed entry of the delimiter-separated list is valid,
`parse_conf_block_cache_paths` returns OK and one normalized (trimmed) path
per entry. -/
theorem parse_paths_all_valid (fsValid : List Char → Bool) (input : List Char)
    (h : ∀ e ∈ splitOnDelim ';' input, entryValid fsValid (trimChars e) = true) :
    (parse_conf_block_cache_paths fsValid input).2 = true ∧
    (parse_conf_block_cache_paths fsValid input).1 =
      (splitOnDelim ';' input).map trimChars ∧
    (parse_conf_block_cache_paths fsValid input).1.length =
      (splitOnDelim ';' input).length := by
  have hall : ∀ t ∈ (splitOnDelim ';' input).map trimChars, entryValid fsValid t = true := by
    intro t ht
    obtain ⟨e, he, rfl⟩ := List.mem_map.mp ht
    exact h e he
  have h2 : (parse_conf_block_cache_paths fsValid input).1 =
      (splitOnDelim ';' input).map trimChars := by
    rw [parse_conf_block_cache_paths, parsePathEntries_fst]
    exact List.filter_eq_self.mpr hall
  refine ⟨?_, h2, ?_⟩
  · rw [parse_conf_block_cache_paths, parsePathEntries_snd]
    exact List.all_eq_true.mpr hall
  · rw [h2, List.length_map]

/-- Witness for C7: a two-entry list of valid directories with whitespace
around entries and delimiter parses to exactly two paths with OK status. -/
theorem parse_paths_all_valid_witness :
    (parse_conf_block_cache_paths pathsTestFs " /d/cache3 ; /d/cache4 ".toList).2 = true ∧
    (parse_conf_block_cache_paths pathsTestFs " /d/cache3 ; /d/cache4 ".toList).1.length = 2 := by
  have h := parse_paths_all_valid pathsTestFs " /d/cache3 ; /d/cache4 ".toList (by decide)
  exact ⟨h.1, by rw [h.2.2]; decide⟩

/-- C6: any invalid entry (empty after trimming, or rejected by the
filesystem) makes `parse_conf_block_cache_paths` return a non-OK status
while the output still holds exactly the valid entries; concretely, for
`"//;/d/cache4 "` the output is the single valid trailing entry with non-OK
status, and for a list whose entries all fail validation the output is
empty with non-OK status. -/
theorem parse_paths_partial_failure :
    (∀ (fsValid : List Char → Bool) (input : List Char) (e : List Char),
      e ∈ splitOnDelim ';' input → entryValid fsValid (trimChars e) = false →
      (parse_conf_block_cache_paths fsValid input).2 = false ∧
      (parse_conf_block_cache_paths fsValid input).1 =
        ((splitOnDelim ';' input).map trimChars).filter (entryValid fsValid)) ∧
    parse_conf_block_cache_paths pathsTestFs "//;/d/cache4 ".toList =
      ([['/', 'd', '/', 'c', 'a', 'c', 'h', 'e', '4']], false) ∧
    parse_conf_block_cache_paths pathsTestFs " /x/cache5;/d+/cache6".toList =
      ([], false) := by
  refine ⟨?_, by decide, by decide⟩
  intro fsValid input e he hbad
  refine ⟨?_, parsePathEntries_fst fsValid (splitOnDelim ';' input)⟩
  rw [parse_conf_block_cache_paths, parsePathEntries_snd]
  cases hf : ((splitOnDelim ';' input).map trimChars).all (entryValid fsValid)
  · rfl
  · exact absurd (List.all_eq_true.mp hf (trimChars e) (List.mem_map_of_mem trimChars he))
      (by rw [hbad]; decide)

/-- Witness for C6: the general clause applied to the concrete input
`"//;/d/cache4 "`, whose first entry is invalid. -/
theorem parse_paths_partial_failure_witness :
    (parse_conf_block_cache_paths pathsTestFs "//;/d/cache4 ".toList).2 = false :=
  (parse_paths_partial_failure.1 pathsTestFs "//;/d/cache4 ".toList "//".toList
    (by decide) (by decide)).1

/-! ### BlockCache: store lemmas -/

theorem lookupBlock_setBlock_same (st : BlockCacheState) (key : String) (i : Nat)
    (blk : List Nat) : lookupBlock (setBlock st key i blk) key i = some blk := by
  simp [lookupBlock, setBlock, List.find?_cons]

theorem lookupBlock_setBlock_ne (st : BlockCacheState) (key : String) (i : Nat)
    (blk : List Nat) (key2 : String) (i2 : Nat) (h : ¬(key2 = key ∧ i2 = i)) :
    lookupBlock (setBlock st key i blk) key2 i2 = lookupBlock st key2 i2 := by
  have hpred : ((key == key2) && (i == i2)) = false := by
    by_cases hk : key = key2
    · by_cases hi : i = i2
      · exact absurd ⟨hk.symm, hi.symm⟩ h
      · simp [hi]
    · simp [hk]
  simp only [lookupBlock, setBlock, List.find?_cons, hpred]

theorem find?_filter_none {α : Type} (l : List α) (p q : α → Bool)
    (h : ∀ e, p e = true → q e = false) : (l.filter q).find? p = none := by
  rw [List.find?_eq_none]
  intro x hx hpx
  obtain ⟨hmem, hq⟩ := List.mem_filter.mp hx
  rw [h x hpx] at hq
  exact Bool.noConfusion hq

/-! ### BlockCache: merge lemmas -/

theorem mergeBlock_length (old : List Nat) (lo : Nat) (chunk : List Nat) :
    (mergeBlock old lo chunk).length = max (lo + chunk.length) old.length := by
  simp only [mergeBlock, List.length_append, List.length_take, List.length_replicate,
    List.length_drop]
  omega

theorem mergeBlock_getElem_chunk (old : List Nat) (lo : Nat) (chunk : List Nat) (j : Nat)
    (h1 : lo ≤ j) (h2 : j < lo + chunk.length) :
    (mergeBlock old lo chunk)[j]? = chunk[j - lo]? := by
  rw [mergeBlock]
  have hlen1 : ((old ++ List.replicate (lo - old.length) 0).take lo).length = lo := by
    simp only [List.length_take, List.length_append, List.length_replicate]
    omega
  rw [List.getElem?_append_left
    (by rw [List.length_append, hlen1]; omega)]
  rw [List.getElem?_append_right (by rw [hlen1]; exact h1), hlen1]

/-! ### BlockCache: chunk-index lemmas -/

theorem mem_range_map_add {a n i : Nat} :
    i ∈ (List.range n).map (fun j => a + j) ↔ a ≤ i ∧ i < a + n := by
  simp only [List.mem_map, List.mem_range]
  constructor
  · rintro ⟨j, hj, rfl⟩
    omega
  · intro h
    exact ⟨i - a, by omega, by omega⟩

theorem mem_chunkIdxs {B off len : Nat} (i : Nat) (hlen : 0 < len) :
    i ∈ chunkIdxs B off len ↔ off / B ≤ i ∧ i ≤ (off + len - 1) / B := by
  rw [chunkIdxs, if_neg (by omega), mem_range_map_add]
  have hmono : off / B ≤ (off + len - 1) / B := Nat.div_le_div_right (by omega)
  omega

theorem div_mem_chunkIdxs {B off len p : Nat} (h1 : off ≤ p) (h2 : p < off + len) :
    p / B ∈ chunkIdxs B off len := by
  rw [mem_chunkIdxs _ (by omega)]
  exact ⟨Nat.div_le_div_right h1, Nat.div_le_div_right (by omega)⟩

theorem chunkIdxs_nodup (B off len : Nat) : (chunkIdxs B off len).Nodup := by
  rw [chunkIdxs]
  split
  · exact List.nodup_nil
  · exact List.Nodup.map (fun a b h => by omega) (List.nodup_range _)

theorem chunkIdxs_peel {B off len : Nat} (hB : 0 < B) (hlen : 0 < len) :
    chunkIdxs B off len =
      off / B :: chunkIdxs B (min (off + len) ((off / B + 1) * B))
        (off + len - min (off + len) ((off / B + 1) * B)) := by
  have hmul : (off / B + 1) * B = off / B * B + B := by ring
  have hdm := Nat.div_add_mod' off B
  have hmlt := Nat.mod_lt off hB
  have hmono : off / B ≤ (off + len - 1) / B := Nat.div_le_div_right (by omega)
  by_cases hc : off + len ≤ (off / B + 1) * B
  · have hmin : min (off + len) ((off / B + 1) * B) = off + len := by omega
    rw [hmin]
    have hz : off + len - (off + len) = 0 := by omega
    rw [hz, chunkIdxs, chunkIdxs, if_neg (by omega), if_pos rfl]
    have hdiv : (off + len - 1) / B = off / B := by
      apply Nat.div_eq_of_lt_le
      · omega
      · rw [Nat.add_mul, Nat.one_mul]
        omega
    rw [hdiv]
    have hone : off / B + 1 - off / B = 1 := by omega
    rw [hone]
    rfl
  · have hmin : min (off + len) ((off / B + 1) * B) = (off / B + 1) * B := by omega
    rw [hmin]
    have hdiv2 : (off / B + 1) * B / B = off / B + 1 := by
      apply Nat.div_eq_of_lt_le
      · omega
      · have : (off / B + 1 + 1) * B = off / B * B + B + B := by ring
        omega
    have hdm2 := Nat.div_add_mod' (off + len - 1) B
    have hmlt2 := Nat.mod_lt (off + len - 1) hB
    have hdiv3 : ((off / B + 1) * B + (off + len - (off / B + 1) * B) - 1) / B =
        (off + len - 1) / B := by
      have he : (off / B + 1) * B + (off + len - (off / B + 1) * B) - 1 = off + len - 1 := by
        omega
      rw [he]
    rw [chunkIdxs, chunkIdxs, if_neg (by omega), if_neg (by omega), hdiv2, hdiv3]
    have hge : off / B + 1 ≤ (off + len - 1) / B := by
      have := Nat.div_le_div_right (c := B) (show off / B * B + B ≤ off + len - 1 by omega)
      have hq : (off / B * B + B) / B = off / B + 1 := by
        apply Nat.div_eq_of_lt_le
        · have : (off / B + 1) * B = off / B * B + B := by ring
          omega
        · have : (off / B + 1 + 1) * B = off / B * B + B + B := by ring
          omega
      rw [hq] at this
      exact this
    have hn : (off + len - 1) / B + 1 - off / B = ((off + len - 1) / B + 1 - (off / B + 1)) + 1 := by
      omega
    rw [hn, List.range_succ_eq_map, List.map_cons, Nat.add_zero, List.map_map]
    congr 1
    have hfun : ((fun j => off / B + j) ∘ Nat.succ) = fun j => off / B + 1 + j := by
      funext j
      simp [Function.comp, Nat.succ_eq_add_one]
      omega
    rw [hfun]

/-! ### BlockCache: write lemmas -/

theorem writeChunks_true_snd (B : Nat) (key : String) (off len : Nat) (data : List Nat) :
    ∀ (idxs : List Nat) (st : BlockCacheState),
      (writeChunks B key off len data true st idxs).2 = SStatus.ok := by
  intro idxs
  induction idxs with
  | nil => intro st; rfl
  | cons i rest ih =>
    intro st
    rw [writeChunks, if_neg (by simp)]
    exact ih _

theorem writeChunks_true_lookup (B : Nat) (key : String) (off len : Nat) (data : List Nat) :
    ∀ (idxs : List Nat) (st : BlockCacheState), idxs.Nodup →
    ∀ (key2 : String) (i2 : Nat),
      lookupBlock (writeChunks B key off len data true st idxs).1 key2 i2 =
        if key2 = key ∧ i2 ∈ idxs then some (writtenBlock B key off len data st i2)
        else lookupBlock st key2 i2 := by
  intro idxs
  induction idxs with
  | nil =>
    intro st _ key2 i2
    rw [writeChunks]
    simp
  | cons i rest ih =>
    intro st hnd key2 i2
    obtain ⟨hni, hnd2⟩ := List.nodup_cons.mp hnd
    rw [writeChunks, if_neg (by simp)]
    rw [ih (writeChunk B key off len data st i) hnd2 key2 i2]
    by_cases hk : key2 = key
    · subst hk
      by_cases hmem : i2 ∈ rest
      · rw [if_pos ⟨rfl, hmem⟩, if_pos ⟨rfl, List.mem_cons_of_mem _ hmem⟩]
        have hne : i2 ≠ i := fun he => hni (he ▸ hmem)
        rw [writtenBlock, writtenBlock, writeChunk,
          lookupBlock_setBlock_ne _ _ _ _ _ _ (fun hc => hne hc.2)]
      · rw [if_neg (fun hc => hmem hc.2)]
        by_cases hi : i2 = i
        · subst hi
          rw [if_pos ⟨rfl, List.mem_cons_self _ _⟩, writeChunk, lookupBlock_setBlock_same]
        · rw [if_neg (fun hc => (List.mem_cons.mp hc.2).elim hi hmem), writeChunk,
            lookupBlock_setBlock_ne _ _ _ _ _ _ (fun hc => hi hc.2)]
    · rw [if_neg (fun hc => hk hc.1), if_neg (fun hc => hk hc.1), writeChunk,
        lookupBlock_setBlock_ne _ _ _ _ _ _ (fun hc => hk hc.1)]

theorem writtenBlock_spec (B off len p i : Nat) (key : String) (data : List Nat)
    (st : BlockCacheState) (hB : 0 < B) (hdata : data.length = len)
    (h1 : off ≤ p) (h2 : p < off + len) (hip : p / B = i) :
    (writtenBlock B key off len data st i)[p - i * B]? = data[p - off]? ∧
    chunkHi off len i B - i * B ≤ (writtenBlock B key off len data st i).length := by
  have hdm := Nat.div_add_mod' p B
  rw [hip] at hdm
  have hmlt := Nat.mod_lt p hB
  have hmul : (i + 1) * B = i * B + B := by ring
  have hlo_le : chunkLo off i B ≤ p := by rw [chunkLo]; omega
  have hhi_gt : p < chunkHi off len i B := by rw [chunkHi]; omega
  have hlo_ge : off ≤ chunkLo off i B := by rw [chunkLo]; omega
  have hhi_le : chunkHi off len i B ≤ off + len := by rw [chunkHi]; omega
  have hlo_iB : i * B ≤ chunkLo off i B := by rw [chunkLo]; omega
  have hchunk_len :
      ((data.drop (chunkLo off i B - off)).take
        (chunkHi off len i B - chunkLo off i B)).length =
      chunkHi off len i B - chunkLo off i B := by
    rw [List.length_take, List.length_drop, hdata]
    omega
  constructor
  · rw [writtenBlock,
      mergeBlock_getElem_chunk _ _ _ _ (by omega) (by rw [hchunk_len]; omega)]
    have hidx : p - i * B - (chunkLo off i B - i * B) = p - chunkLo off i B := by omega
    rw [hidx, List.getElem?_take, if_pos (by omega), List.getElem?_drop]
    congr 1
    omega
  · rw [writtenBlock, mergeBlock_length, hchunk_len]
    omega

/-! ### BlockCache: read lemmas -/

theorem readChunks_congr (B : Nat) (st : BlockCacheState) (key : String)
    (off1 len1 off2 len2 : Nat) :
    ∀ idxs : List Nat,
      (∀ i ∈ idxs, chunkLo off1 i B = chunkLo off2 i B ∧
        chunkHi off1 len1 i B = chunkHi off2 len2 i B) →
      readChunks B st key off1 len1 idxs = readChunks B st key off2 len2 idxs := by
  intro idxs
  induction idxs with
  | nil => intro _; rfl
  | cons i rest ih =>
    intro h
    obtain ⟨hlo, hhi⟩ := h i (List.mem_cons_self _ _)
    rw [readChunks, readChunks, readChunk, readChunk, hlo, hhi,
      ih (fun j hj => h j (List.mem_cons_of_mem _ hj))]

theorem piece_eq (B woff wlen roff hi : Nat) (key : String) (data : List Nat)
    (st : BlockCacheState) (hB : 0 < B) (hdata : data.length = wlen)
    (h1 : woff ≤ roff) (hhi_le : hi ≤ woff + wlen) (hhi_blk : hi ≤ (roff / B + 1) * B) :
    ((writtenBlock B key woff wlen data st (roff / B)).drop
        (roff - roff / B * B)).take (hi - roff) =
      (data.drop (roff - woff)).take (hi - roff) := by
  apply List.ext_getElem?
  intro q
  rw [List.getElem?_take, List.getElem?_take]
  by_cases hq : q < hi - roff
  · rw [if_pos hq, if_pos hq, List.getElem?_drop, List.getElem?_drop]
    have hdm := Nat.div_add_mod' roff B
    have hmlt := Nat.mod_lt roff hB
    have hmul : (roff / B + 1) * B = roff / B * B + B := by ring
    have hdiv : (roff + q) / B = roff / B :=
      Nat.div_eq_of_lt_le (by omega) (by rw [Nat.add_mul, Nat.one_mul]; omega)
    have hs := writtenBlock_spec B woff wlen (roff + q) (roff / B) key data st hB hdata
      (by omega) (by omega) hdiv
    have e1 : roff - roff / B * B + q = roff + q - roff / B * B := by omega
    have e2 : roff - woff + q = roff + q - woff := by omega
    rw [e1, e2]
    exact hs.1
  · rw [if_neg hq, if_neg hq]

/-- The round-trip core: after a `write_cache` of `data` over
`[woff, woff + wlen)` with overwrite, reading any non-empty sub-range
returns exactly the corresponding slice of `data`. -/
theorem roundtrip_aux {B : Nat} (key : String) {woff wlen : Nat} (data : List Nat)
    (st : BlockCacheState) (hB : 0 < B) (hdata : data.length = wlen) :
    ∀ rlen roff, 0 < rlen → woff ≤ roff → roff + rlen ≤ woff + wlen →
      read_cache B (write_cache B st key woff wlen data true).1 key roff rlen =
        some ((data.drop (roff - woff)).take rlen) := by
  intro rlen
  induction rlen using Nat.strong_induction_on with
  | _ rlen ih =>
  intro roff hr h1 h2
  have hdm := Nat.div_add_mod' roff B
  have hmlt := Nat.mod_lt roff hB
  have hmul : (roff / B + 1) * B = roff / B * B + B := by ring
  have hwmem : roff / B ∈ chunkIdxs B woff wlen := div_mem_chunkIdxs h1 (by omega)
  have hlook : lookupBlock (write_cache B st key woff wlen data true).1 key (roff / B)
      = some (writtenBlock B key woff wlen data st (roff / B)) := by
    rw [write_cache, writeChunks_true_lookup B key woff wlen data _ st
      (chunkIdxs_nodup B woff wlen) key (roff / B), if_pos ⟨rfl, hwmem⟩]
  have hspec := writtenBlock_spec B woff wlen roff (roff / B) key data st hB hdata h1
    (by omega) rfl
  have hcLo : chunkLo roff (roff / B) B = roff := by rw [chunkLo]; omega
  have hguard : chunkHi roff rlen (roff / B) B - roff / B * B ≤
      (writtenBlock B key woff wlen data st (roff / B)).length := by
    have h3 : chunkHi roff rlen (roff / B) B ≤ chunkHi woff wlen (roff / B) B := by
      rw [chunkHi, chunkHi]
      omega
    have h4 := hspec.2
    omega
  have hrc : readChunk B (write_cache B st key woff wlen data true).1 key roff rlen
      (roff / B) =
      some (((writtenBlock B key woff wlen data st (roff / B)).drop
        (roff - roff / B * B)).take
          (chunkHi roff rlen (roff / B) B - roff / B * B - (roff - roff / B * B))) := by
    simp only [readChunk, hlook, hcLo]
    rw [if_pos hguard]
  rw [read_cache, chunkIdxs_peel hB hr]
  by_cases hc : roff + rlen ≤ (roff / B + 1) * B
  · have hminA : min (roff + rlen) ((roff / B + 1) * B) = roff + rlen := by omega
    have hz : roff + rlen - (roff + rlen) = 0 := by omega
    have hnil : chunkIdxs B (roff + rlen) 0 = [] := by rw [chunkIdxs]; simp
    have hchiA : chunkHi roff rlen (roff / B) B = roff + rlen := by rw [chunkHi]; omega
    have hidx : roff + rlen - roff / B * B - (roff - roff / B * B) = rlen := by omega
    have hpiece := piece_eq B woff wlen roff (roff + rlen) key data st hB hdata h1 h2 hc
    have hidx2 : roff + rlen - roff = rlen := by omega
    rw [hidx2] at hpiece
    simp only [hminA, hz, hnil, readChunks, hrc, hchiA, hidx, hpiece, List.append_nil]
  · have hminB : min (roff + rlen) ((roff / B + 1) * B) = (roff / B + 1) * B := by omega
    have hlen2 : 0 < roff + rlen - (roff / B + 1) * B := by omega
    have hdiv2 : (roff / B + 1) * B / B = roff / B + 1 := by
      apply Nat.div_eq_of_lt_le
      · omega
      · have : (roff / B + 1 + 1) * B = roff / B * B + B + B := by ring
        omega
    have hcongr : readChunks B (write_cache B st key woff wlen data true).1 key roff rlen
        (chunkIdxs B ((roff / B + 1) * B) (roff + rlen - (roff / B + 1) * B)) =
        readChunks B (write_cache B st key woff wlen data true).1 key
          ((roff / B + 1) * B) (roff + rlen - (roff / B + 1) * B)
          (chunkIdxs B ((roff / B + 1) * B) (roff + rlen - (roff / B + 1) * B)) := by
      apply readChunks_congr
      intro i hi
      have himem := (mem_chunkIdxs i hlen2).mp hi
      rw [hdiv2] at himem
      have hiB : (roff / B + 1) * B ≤ i * B := Nat.mul_le_mul_right B himem.1
      constructor
      · rw [chunkLo, chunkLo]
        omega
      · rw [chunkHi, chunkHi]
        have he : roff + rlen = (roff / B + 1) * B + (roff + rlen - (roff / B + 1) * B) := by
          omega
        rw [← he]
    have htail := ih (roff + rlen - (roff / B + 1) * B) (by omega) ((roff / B + 1) * B)
      hlen2 (by omega) (by omega)
    rw [read_cache] at htail
    have htail2 : readChunks B (write_cache B st key woff wlen data true).1 key roff rlen
        (chunkIdxs B ((roff / B + 1) * B) (roff + rlen - (roff / B + 1) * B)) =
        some ((data.drop ((roff / B + 1) * B - woff)).take
          (roff + rlen - (roff / B + 1) * B)) := by
      rw [hcongr, htail]
    have hchiB : chunkHi roff rlen (roff / B) B = (roff / B + 1) * B := by
      rw [chunkHi]
      omega
    have hidx : (roff / B + 1) * B - roff / B * B - (roff - roff / B * B) =
        (roff / B + 1) * B - roff := by omega
    have hpiece := piece_eq B woff wlen roff ((roff / B + 1) * B) key data st hB hdata h1
      (by omega) (le_refl _)
    simp only [hminB, readChunks, hrc, hchiB, hidx, hpiece, htail2]
    have hsplit : rlen = ((roff / B + 1) * B - roff) + (roff + rlen - (roff / B + 1) * B) := by
      omega
    conv_rhs => rw [hsplit, List.take_add, List.drop_drop]
    have hidx3 : roff - woff + ((roff / B + 1) * B - roff) = (roff / B + 1) * B - woff := by
      omega
    rw [hidx3]

/-! ### BlockCache: claim theorems -/

/-- C1: after `write_cache` fully writes `[woff, woff + wlen)` (internally
combining as many block-sized sub-writes as the range requires), a
`read_cache` over any valid non-empty `(roff, rlen)` within that range
returns OK and exactly the bytes last written there. -/
theorem write_read_roundtrip (B : Nat) (st : BlockCacheState) (key : String)
    (woff wlen roff rlen : Nat) (data : List Nat) (hB : 0 < B)
    (hdata : data.length = wlen) (h1 : woff ≤ roff) (h2 : 0 < rlen)
    (h3 : roff + rlen ≤ woff + wlen) :
    read_cache B (write_cache B st key woff wlen data true).1 key roff rlen =
      some ((data.drop (roff - woff)).take rlen) :=
  roundtrip_aux key data st hB hdata rlen roff h2 h1 h3

/-- Witness for C1: writing six bytes at offset 1 with block size 4 (two
block-sized sub-writes) and reading four bytes at offset 2 returns exactly
those four bytes. -/
theorem write_read_roundtrip_witness :
    read_cache 4 (write_cache 4 ⟨[]⟩ "f" 1 6 [10, 11, 12, 13, 14, 15] true).1 "f" 2 4 =
      some [11, 12, 13, 14] := by
  have h := write_read_roundtrip 4 ⟨[]⟩ "f" 1 6 2 4 [10, 11, 12, 13, 14, 15]
    (by decide) rfl (by decide) (by decide) (by decide)
  rw [h]
  rfl

theorem writeChunks_false_of_none (B : Nat) (key : String) (off len : Nat)
    (data : List Nat) :
    ∀ (idxs : List Nat) (st : BlockCacheState),
      (∀ i ∈ idxs, lookupBlock st key i = none) → idxs.Nodup →
      writeChunks B key off len data false st idxs =
        writeChunks B key off len data true st idxs := by
  intro idxs
  induction idxs with
  | nil => intro st _ _; rfl
  | cons i rest ih =>
    intro st h hnd
    obtain ⟨hni, hnd2⟩ := List.nodup_cons.mp hnd
    have hnone := h i (List.mem_cons_self _ _)
    rw [writeChunks, writeChunks, if_neg (by rw [hnone]; simp), if_neg (by simp)]
    apply ih
    · intro j hj
      have hne : ¬(key = key ∧ j = i) := by
        rintro ⟨-, rfl⟩
        exact hni hj
      rw [writeChunk, lookupBlock_setBlock_ne _ _ _ _ _ _ hne]
      exact h j (List.mem_cons_of_mem _ hj)
    · exact hnd2

/-- C2: on an untouched key, `write_cache` with `overwrite=false` succeeds;
a second identical call with `overwrite=false` fails with AlreadyExists and
leaves the state (hence the stored bytes) unchanged; a subsequent call with
`overwrite=true` succeeds and a following `read_cache` returns the new
bytes. -/
theorem write_with_overwrite_option (B : Nat) (st : BlockCacheState) (key : String)
    (off len : Nat) (d1 d2 : List Nat) (hB : 0 < B) (hlen : 0 < len)
    (h1 : d1.length = len) (h2 : d2.length = len)
    (huntouched : ∀ i, lookupBlock st key i = none) :
    (write_cache B st key off len d1 false).2 = SStatus.ok ∧
    write_cache B (write_cache B st key off len d1 false).1 key off len d1 false =
      ((write_cache B st key off len d1 false).1,
        SStatus.alreadyExist "the cache item already exists") ∧
    (write_cache B (write_cache B st key off len d1 false).1 key off len d2 true).2 =
      SStatus.ok ∧
    read_cache B
      (write_cache B (write_cache B st key off len d1 false).1 key off len d2 true).1
      key off len = some d2 := by
  have hagn : write_cache B st key off len d1 false =
      write_cache B st key off len d1 true := by
    rw [write_cache, write_cache, writeChunks_false_of_none B key off len d1 _ st
      (fun i _ => huntouched i) (chunkIdxs_nodup _ _ _)]
  have hlook1 : lookupBlock (write_cache B st key off len d1 false).1 key (off / B) =
      some (writtenBlock B key off len d1 st (off / B)) := by
    rw [hagn, write_cache, writeChunks_true_lookup B key off len d1 _ st
      (chunkIdxs_nodup _ _ _) key (off / B),
      if_pos ⟨rfl, div_mem_chunkIdxs (le_refl off) (by omega)⟩]
  refine ⟨?_, ?_, ?_, ?_⟩
  · rw [hagn, write_cache, writeChunks_true_snd]
  · conv_lhs => rw [write_cache, chunkIdxs_peel hB hlen, writeChunks]
    rw [if_pos ⟨rfl, by rw [hlook1]; rfl⟩]
  · rw [write_cache, writeChunks_true_snd]
  · have h := roundtrip_aux key d2 (write_cache B st key off len d1 false).1 hB h2
      len off hlen (le_refl _) (le_refl _)
    rw [h, Nat.sub_self, List.drop_zero, ← h2, List.take_length]

/-- Witness for C2: concrete six-byte writes with block size 4 on a fresh
cache — first non-overwriting write succeeds and after the overwriting
rewrite the new bytes are read back. -/
theorem write_with_overwrite_option_witness :
    (write_cache 4 ⟨[]⟩ "k" 0 6 [1, 1, 1, 1, 1, 1] false).2 = SStatus.ok ∧
    read_cache 4
      (write_cache 4 (write_cache 4 ⟨[]⟩ "k" 0 6 [1, 1, 1, 1, 1, 1] false).1 "k" 0 6
        [2, 2, 2, 2, 2, 2] true).1 "k" 0 6 = some [2, 2, 2, 2, 2, 2] := by
  have h := write_with_overwrite_option 4 ⟨[]⟩ "k" 0 6 [1, 1, 1, 1, 1, 1]
    [2, 2, 2, 2, 2, 2] (by decide) (by decide) rfl rfl (fun i => rfl)
  exact ⟨h.1, h.2.2.2⟩

theorem lookupBlock_remove (B : Nat) (st : BlockCacheState) (key : String)
    (off len i : Nat) (hi : i ∈ chunkIdxs B off len) :
    lookupBlock (remove_cache B st key off len).1 key i = none := by
  have hf : (st.store.filter
      (fun e => !(e.1.1 == key && decide (e.1.2 ∈ chunkIdxs B off len)))).find?
        (fun e => e.1.1 == key && e.1.2 == i) = none := by
    apply find?_filter_none
    intro e he
    simp only [Bool.and_eq_true, beq_iff_eq] at he
    obtain ⟨hk, hii⟩ := he
    simp [hk, hii, hi]
  simp only [lookupBlock, remove_cache, hf]

/-- C3: after `remove_cache(key, off, len)` returns OK, a `read_cache` over
any non-empty sub-range of `[off, off + len)` returns NotFound; removing a
range none of whose blocks is present is a no-op on the state and still
returns OK. -/
theorem remove_then_read_notfound (B : Nat) (st : BlockCacheState) (key : String)
    (off len roff rlen : Nat) (hB : 0 < B) (h1 : off ≤ roff) (h2 : 0 < rlen)
    (h3 : roff + rlen ≤ off + len) :
    (remove_cache B st key off len).2 = SStatus.ok ∧
    read_cache B (remove_cache B st key off len).1 key roff rlen = none ∧
    ((∀ i ∈ chunkIdxs B off len, lookupBlock st key i = none) →
      (remove_cache B st key off len).1 = st) := by
  refine ⟨rfl, ?_, ?_⟩
  · rw [read_cache, chunkIdxs_peel hB h2, readChunks]
    have hmem : roff / B ∈ chunkIdxs B off len := div_mem_chunkIdxs h1 (by omega)
    have hnone := lookupBlock_remove B st key off len (roff / B) hmem
    simp only [readChunk, hnone]
  · intro h
    have hall : ∀ e ∈ st.store,
        (!(e.1.1 == key && decide (e.1.2 ∈ chunkIdxs B off len))) = true := by
      intro e he
      by_cases hk : e.1.1 = key
      · by_cases hm : e.1.2 ∈ chunkIdxs B off len
        · exfalso
          have hn := h e.1.2 hm
          rw [lookupBlock] at hn
          cases hfind : st.store.find? (fun x => x.1.1 == key && x.1.2 == e.1.2) with
          | some x => rw [hfind] at hn; exact Option.noConfusion hn
          | none =>
            exact List.find?_eq_none.mp hfind e he (by simp [hk])
        · simp [hm]
      · simp [hk]
    have hfilter : st.store.filter
        (fun e => !(e.1.1 == key && decide (e.1.2 ∈ chunkIdxs B off len))) = st.store :=
      List.filter_eq_self.mpr hall
    show BlockCacheState.mk _ = st
    rw [hfilter]

/-- Witness for C3: removing the six bytes just written (block size 4) and
reading two bytes inside the removed range yields NotFound. -/
theorem remove_then_read_notfound_witness :
    read_cache 4
      (remove_cache 4 (write_cache 4 ⟨[]⟩ "k" 0 6 [1, 2, 3, 4, 5, 6] true).1 "k" 0 6).1
      "k" 2 2 = none :=
  (remove_then_read_notfound 4 (write_cache 4 ⟨[]⟩ "k" 0 6 [1, 2, 3, 4, 5, 6] true).1
    "k" 0 6 2 2 (by decide) (by decide) (by decide) (by decide)).2.1

/-- C4: a `read_cache` at an offset beyond every block ever stored for the
identifier returns NotFound — the total function returns `none`, never
garbage bytes, and consults no slow-storage reader (none is modelled). -/
theorem read_beyond_written_notfound (B : Nat) (st : BlockCacheState) (key : String)
    (off len : Nat) (hB : 0 < B) (hlen : 0 < len)
    (h : ∀ i, off / B ≤ i → lookupBlock st key i = none) :
    read_cache B st key off len = none := by
  rw [read_cache, chunkIdxs_peel hB hlen, readChunks]
  simp only [readChunk, h (off / B) (le_refl _)]

/-- Witness for C4: with only block 0 of the identifier present (block size
4), reading at offset 4000 — far beyond the written extent — yields
NotFound. -/
theorem read_beyond_written_notfound_witness :
    read_cache 4 ⟨[(("k", 0), [7, 7, 7])]⟩ "k" 4000 5 = none := by
  apply read_beyond_written_notfound 4 ⟨[(("k", 0), [7, 7, 7])]⟩ "k" 4000 5
    (by decide) (by decide)
  intro i hi
  have h0 : ((0 : Nat) == i) = false := beq_eq_false_iff_ne.mpr (by omega)
  simp [lookupBlock, List.find?, h0]

end StarRocks
